import Mathlib

/-!
Verification of the diff/patch/conflict core of `yaml-note-mvp`
(`src/packages/core-wasm/src/diff.rs` and `src/packages/core-wasm/src/validate.rs`).

The document tree is the dynamic JSON value used throughout the Rust code
(`serde_json::Value`); mappings are `serde_json::Map` values, i.e. `BTreeMap`s
keyed by strings in byte order, which we model as association lists sorted
strictly by a code-point-lexicographic order (UTF-8 byte order and code-point
order coincide).  Numbers are modelled as integers: no claim under
verification depends on the arithmetic of YAML scalars, only on their
structural equality, which the integer model preserves.
-/

/-- Model of `serde_json::Value` (diff.rs, validate.rs): the dynamic tree of
nulls, booleans, numbers, strings, arrays and string-keyed objects. -/
inductive Json where
  | null : Json
  | bool (b : Bool) : Json
  | num (n : Int) : Json
  | str (s : String) : Json
  | arr (xs : List Json) : Json
  | obj (kvs : List (String × Json)) : Json

/-- Structural equality test on trees, the model of `PartialEq` on
`serde_json::Value` (used by `json_patch::diff` for subtree comparison). -/
def Json.beq : Json → Json → Bool
  | .null, .null => true
  | .bool a, .bool b => a == b
  | .num a, .num b => a == b
  | .str a, .str b => a == b
  | .arr xs, .arr ys => beqL xs ys
  | .obj xs, .obj ys => beqKV xs ys
  | _, _ => false
where
  beqL : List Json → List Json → Bool
  | [], [] => true
  | x :: xs, y :: ys => Json.beq x y && beqL xs ys
  | _, _ => false
  beqKV : List (String × Json) → List (String × Json) → Bool
  | [], [] => true
  | (k, x) :: xs, (l, y) :: ys => k == l && Json.beq x y && beqKV xs ys
  | _, _ => false

theorem Json.beq_iff : ∀ a b : Json, Json.beq a b = true ↔ a = b := by
  apply Json.beq.induct
    (motive_1 := fun xs ys => Json.beq.beqL xs ys = true ↔ xs = ys)
    (motive_2 := fun a b => Json.beq a b = true ↔ a = b)
    (motive_3 := fun xs ys => Json.beq.beqKV xs ys = true ↔ xs = ys)
  all_goals intros
  case case5 ih => simp [Json.beq, ih]
  case case6 ih => simp [Json.beq, ih]
  case case7 => cases ‹Json› <;> cases ‹Json› <;> simp_all [Json.beq]
  case case9 ihx ihxs => simp [Json.beq.beqL, ihx, ihxs]
  case case10 t x h1 h2 =>
    cases t with
    | nil =>
      cases x with
      | nil => exact (h1 rfl rfl).elim
      | cons y ys => simp [Json.beq.beqL]
    | cons a as1 =>
      cases x with
      | nil => simp [Json.beq.beqL]
      | cons y ys => exact (h2 a as1 y ys rfl rfl).elim
  case case12 ihx ihxs => simp [Json.beq.beqKV, ihx, ihxs]
  case case13 t x h1 h2 =>
    cases t with
    | nil =>
      cases x with
      | nil => exact (h1 rfl rfl).elim
      | cons y ys => simp [Json.beq.beqKV]
    | cons a as1 =>
      cases x with
      | nil => simp [Json.beq.beqKV]
      | cons y ys => exact (h2 a.1 a.2 as1 y.1 y.2 ys (by simp) (by simp)).elim
  all_goals simp [Json.beq, Json.beq.beqL, Json.beq.beqKV]

instance : DecidableEq Json := fun a b =>
  if h : Json.beq a b = true then .isTrue ((Json.beq_iff a b).mp h)
  else .isFalse (fun hc => h ((Json.beq_iff a b).mpr hc))

/-- Strict lexicographic order on character lists by code point; together with
`strLt` this models the `Ord` instance on Rust `String` (UTF-8 byte order)
that orders the keys of a `serde_json::Map` (`BTreeMap<String, Value>`). -/
def chLt : List Char → List Char → Bool
  | [], [] => false
  | [], _ :: _ => true
  | _ :: _, [] => false
  | a :: as, b :: bs =>
    if a.toNat < b.toNat then true
    else if b.toNat < a.toNat then false
    else chLt as bs

/-- Model of the Rust `String` ordering used by `BTreeMap` keys. -/
def strLt (a b : String) : Bool := chLt a.data b.data

/-- Association-list lookup, the model of `BTreeMap::get` /
`Map::get` on object keys (validate.rs `map.get_mut(path[0])`). -/
def lookupKV : List (String × Json) → String → Option Json
  | [], _ => none
  | (k, v) :: rest, key => if key = k then some v else lookupKV rest key

/-- Model of `BTreeMap::contains_key` (validate.rs `map.contains_key`). -/
def containsKV (m : List (String × Json)) (k : String) : Bool :=
  (lookupKV m k).isSome

/-- Order-preserving insert-or-replace, the model of `BTreeMap::insert`
(validate.rs `map.insert(path[0].to_string(), value)`): on a key-sorted list
it inserts the new binding at its ordered position, or replaces the value of
an existing binding in place. -/
def mapInsert : List (String × Json) → String → Json → List (String × Json)
  | [], k, v => [(k, v)]
  | (k1, v1) :: rest, k, v =>
    if strLt k k1 then (k, v) :: (k1, v1) :: rest
    else if k = k1 then (k, v) :: rest
    else (k1, v1) :: mapInsert rest k v

/-- Model of `BTreeMap::remove` (validate.rs `map.remove(path[0])`): drops the
binding of the given key (the first one, which on a sorted unique-key list is
the only one). -/
def mapRemove : List (String × Json) → String → List (String × Json)
  | [], _ => []
  | (k1, v1) :: rest, k =>
    if k = k1 then rest else (k1, v1) :: mapRemove rest k

/-- Model of `str::parse::<usize>` as used for array index tokens
(validate.rs `path[0].parse::<usize>()`): accepts a nonempty all-digit
segment.  The Rust parser additionally accepts a leading `+` and rejects
values above `usize::MAX`; no verified claim touches either fringe, and all
index tokens produced by the diff engine are plain decimal digits. -/
def parseIndex (s : String) : Option Nat :=
  if s.data ≠ [] ∧ s.data.all Char.isDigit
  then some (s.data.foldl (fun n c => n * 10 + (c.toNat - 48)) 0)
  else none

/-- Splitting a character list at a separator, keeping empty segments; with
`splitSlash` this models Rust `str::split('/')`
(validate.rs `path.split('/').collect()`). -/
def splitCh (sep : Char) : List Char → List (List Char)
  | [] => [[]]
  | c :: cs =>
    let r := splitCh sep cs
    if c = sep then [] :: r
    else
      match r with
      | [] => [[c]]
      | seg :: rest => (c :: seg) :: rest

/-- Model of `path.split('/')` on a path string (validate.rs line 146). -/
def splitSlash (s : String) : List String := (splitCh '/' s.data).map String.mk

/-- Model of validate.rs `add_value_at_path` (lines 179-235): `add` mutator.
An empty path replaces the root.  In an object, a final token inserts or
overwrites the key; a non-final missing key is auto-vivified as an empty
object (`map.insert(path[0].to_string(), json!({}))`) before recursing.  In
an array, the final token `-` appends, a non-final `-` is an error, a numeric
token must satisfy `index <= len` (push at `len`, shifting insert below it),
and traversal continues only at `index < len`.  Scalars reject any remaining
path.  The Rust mutators take `&mut Value` and return `Result<(), String>`;
we return `Except String Json`.  On the error path the Rust code may leave a
vivified stub inside its working value, but every caller
(`apply_json_patch`) propagates the error with `?` and drops that working
clone, so the error branch carries no tree. -/
def addValueAtPath : Json → List String → Json → Except String Json
  | _, [], v => .ok v
  | .obj m, [k], v => .ok (.obj (mapInsert m k v))
  | .obj m, k :: rest, v =>
    match lookupKV m k with
    | some sub => (addValueAtPath sub rest v).map (fun s => .obj (mapInsert m k s))
    | none => (addValueAtPath (.obj []) rest v).map (fun s => .obj (mapInsert m k s))
  | .arr xs, [k], v =>
    if k = "-" then .ok (.arr (xs ++ [v]))
    else
      match parseIndex k with
      | none => .error ("Invalid array index: " ++ k)
      | some i =>
        if i > xs.length then .error ("Array index out of bounds: " ++ toString i)
        else if i = xs.length then .ok (.arr (xs ++ [v]))
        else .ok (.arr (xs.insertIdx i v))
  | .arr xs, k :: rest, v =>
    if k = "-" then .error "Cannot add nested value to array end index"
    else
      match parseIndex k with
      | none => .error ("Invalid array index: " ++ k)
      | some i =>
        if i > xs.length then .error ("Array index out of bounds: " ++ toString i)
        else if h : i < xs.length then
          (addValueAtPath (xs.get ⟨i, h⟩) rest v).map (fun s => .arr (xs.set i s))
        else .error ("Cannot access nested path at index " ++ toString i)
  | _, _ :: _, _ => .error "Cannot add value to non-object and non-array"

/-- Model of validate.rs `remove_value_at_path` (lines 238-281): `remove`
mutator.  Removing the root is an error; in an object the final token must be
a present key; in an array `-` is rejected, and a numeric token must satisfy
`index < len`. -/
def removeValueAtPath : Json → List String → Except String Json
  | _, [] => .error "Cannot remove root"
  | .obj m, [k] =>
    if containsKV m k then .ok (.obj (mapRemove m k))
    else .error ("Path not found: /" ++ k)
  | .obj m, k :: rest =>
    match lookupKV m k with
    | some sub => (removeValueAtPath sub rest).map (fun s => .obj (mapInsert m k s))
    | none => .error ("Path not found: /" ++ String.intercalate "/" (k :: rest))
  | .arr xs, k :: rest =>
    if k = "-" then .error "Cannot remove from end of array marker"
    else
      match parseIndex k with
      | none => .error ("Invalid array index: " ++ k)
      | some i =>
        if h : i < xs.length then
          match rest with
          | [] => .ok (.arr (xs.eraseIdx i))
          | _ => (removeValueAtPath (xs.get ⟨i, h⟩) rest).map (fun s => .arr (xs.set i s))
        else .error ("Array index out of bounds: " ++ toString i)
  | _, _ :: _ => .error "Cannot remove value from non-object and non-array"

/-- Model of validate.rs `replace_value_at_path` (lines 284-329): `replace`
mutator.  An empty path replaces the root; in an object the final token must
be a present key (no upsert); in an array `-` is rejected and a numeric token
must satisfy `index < len`. -/
def replaceValueAtPath : Json → List String → Json → Except String Json
  | _, [], v => .ok v
  | .obj m, [k], v =>
    if containsKV m k then .ok (.obj (mapInsert m k v))
    else .error ("Path not found for replace: /" ++ k)
  | .obj m, k :: rest, v =>
    match lookupKV m k with
    | some sub => (replaceValueAtPath sub rest v).map (fun s => .obj (mapInsert m k s))
    | none =>
      .error ("Path not found for replace: /" ++ String.intercalate "/" (k :: rest))
  | .arr xs, k :: rest, v =>
    if k = "-" then .error "Cannot replace end of array marker"
    else
      match parseIndex k with
      | none => .error ("Invalid array index: " ++ k)
      | some i =>
        if h : i < xs.length then
          match rest with
          | [] => .ok (.arr (xs.set i v))
          | _ =>
            (replaceValueAtPath (xs.get ⟨i, h⟩) rest v).map (fun s => .arr (xs.set i s))
        else .error ("Array index out of bounds: " ++ toString i)
  | _, _ :: _, _ => .error "Cannot replace value in non-object and non-array"

/-- Model of `serde_json::Value::get` on an object followed by `as_str`
handling: field access of a patch-operation object
(validate.rs `op.get("op")`, `op.get("path")`, `op.get("value")`).
`get` on a non-object value yields `None`. -/
def jGet : Json → String → Option Json
  | .obj m, k => lookupKV m k
  | _, _ => none

/-- Model of `Value::as_str` (validate.rs `v.as_str()`). -/
def jAsStr : Json → Option String
  | .str s => some s
  | _ => none

/-- One iteration of the loop body of validate.rs `apply_json_patch`
(lines 133-172): read and check the `op` and `path` fields of one
patch-operation object, split the path at `/`, require a leading empty
token, then dispatch to the matching mutator. -/
def applyOneOp (doc : Json) (op : Json) : Except String Json :=
  match jGet op "op" with
  | none => .error "Missing 'op' field in patch"
  | some opv =>
    match jAsStr opv with
    | none => .error "Invalid op field"
    | some opType =>
      match jGet op "path" with
      | none => .error "Missing 'path' field in patch"
      | some pathv =>
        match jAsStr pathv with
        | none => .error "Invalid path field"
        | some path =>
          match splitSlash path with
          | [] => .error ("Invalid JSON Pointer: " ++ path)
          | t0 :: toks =>
            if t0 ≠ "" then .error ("Invalid JSON Pointer: " ++ path)
            else
              match opType with
              | "add" =>
                match jGet op "value" with
                | none => .error "Missing 'value' field for 'add' operation"
                | some v => addValueAtPath doc toks v
              | "remove" => removeValueAtPath doc toks
              | "replace" =>
                match jGet op "value" with
                | none => .error "Missing 'value' field for 'replace' operation"
                | some v => replaceValueAtPath doc toks v
              | other => .error ("Unsupported operation: " ++ other)

/-- Model of validate.rs `apply_json_patch` (lines 130-176): fold the
operations over a working copy of the document; the first failing operation
aborts the whole patch with its error, and the `Err` branch carries no
document (the caller keeps its own unmodified value). -/
def applyJsonPatch (doc : Json) : List Json → Except String Json
  | [] => .ok doc
  | op :: rest =>
    match applyOneOp doc op with
    | .ok d => applyJsonPatch d rest
    | .error e => .error e

/-- The caller-visible result of a failed patch: the fail-soft wrapper shape
of diff.rs `apply_patch` at the value level — a successful application
returns the patched tree, any failure leaves the caller with the original
tree. -/
def applyPatchFailSoft (doc : Json) (ops : List Json) : Json :=
  match applyJsonPatch doc ops with
  | .ok d => d
  | .error _ => doc

instance {e a : Type} [DecidableEq e] [DecidableEq a] : DecidableEq (Except e a) := fun x y =>
  match x, y with
  | .ok v, .ok w =>
    if h : v = w then .isTrue (by rw [h]) else .isFalse (fun hc => by cases hc; exact h rfl)
  | .error v, .error w =>
    if h : v = w then .isTrue (by rw [h]) else .isFalse (fun hc => by cases hc; exact h rfl)
  | .ok _, .error _ => .isFalse (fun hc => by cases hc)
  | .error _, .ok _ => .isFalse (fun hc => by cases hc)

/-- Path token of the spec data model (spec §3): a mapping key, a sequence
index, or the append-to-end marker rendered `-` on the wire. -/
inductive Tok where
  | key (s : String)
  | idx (n : Nat)
  | app
deriving DecidableEq

/-- Path error taxonomy of spec §7. -/
inductive PathError where
  | pathNotFound
  | indexOutOfBounds
  | invalidPath
  | typeMismatch
deriving DecidableEq

/-- Edit operation of the spec data model (spec §3):
`Add(path, value)`, `Remove(path)`, `Replace(path, value)`. -/
inductive Op where
  | add (p : List Tok) (v : Json)
  | remove (p : List Tok) : Op
  | replace (p : List Tok) (v : Json)

/-- Prepends one token to the path of an operation (the `path+key` /
`path+index` prefixing of spec §4.2). -/
def Op.withPre (t : Tok) : Op → Op
  | .add p v => .add (t :: p) v
  | .remove p => .remove (t :: p)
  | .replace p v => .replace (t :: p) v

/-- Modelled from the spec: the `insert` path mutator of §4.1, standing in
for the `add` case of `json_patch::patch` invoked by diff.rs `apply_patch`
(the json-patch crate is not part of this repository's sources).  Empty path
replaces the root; a final mapping key is created or overwritten; a missing
non-final mapping key is auto-vivified as an empty mapping; on sequences the
append marker is final-only, an index `i ≤ len` inserts (with `i = len`
appending), and traversal requires `i < len`; traversing through a scalar is
a type mismatch. -/
def insertT : Json → List Tok → Json → Except PathError Json
  | _, [], v => .ok v
  | .obj m, [.key k], v => .ok (.obj (mapInsert m k v))
  | .obj m, .key k :: rest, v =>
    match lookupKV m k with
    | some sub => (insertT sub rest v).map (fun s => .obj (mapInsert m k s))
    | none => (insertT (.obj []) rest v).map (fun s => .obj (mapInsert m k s))
  | .obj _, _ :: _, _ => .error .typeMismatch
  | .arr xs, [.app], v => .ok (.arr (xs ++ [v]))
  | .arr _, .app :: _ :: _, _ => .error .invalidPath
  | .arr xs, [.idx i], v =>
    if i > xs.length then .error .indexOutOfBounds
    else if i = xs.length then .ok (.arr (xs ++ [v]))
    else .ok (.arr (xs.insertIdx i v))
  | .arr xs, .idx i :: rest, v =>
    if h : i < xs.length then
      (insertT (xs.get ⟨i, h⟩) rest v).map (fun s => .arr (xs.set i s))
    else .error .indexOutOfBounds
  | .arr _, .key _ :: _, _ => .error .invalidPath
  | _, _ :: _, _ => .error .typeMismatch

/-- Modelled from the spec: the `delete` path mutator of §4.1, standing in
for the `remove` case of `json_patch::patch` invoked by diff.rs
`apply_patch`.  The root cannot be deleted; a missing mapping key is
`PathNotFound`; sequence indices require `i < len`; the append marker is
invalid. -/
def deleteT : Json → List Tok → Except PathError Json
  | _, [] => .error .pathNotFound
  | .obj m, [.key k] =>
    if containsKV m k then .ok (.obj (mapRemove m k)) else .error .pathNotFound
  | .obj m, .key k :: rest =>
    match lookupKV m k with
    | some sub => (deleteT sub rest).map (fun s => .obj (mapInsert m k s))
    | none => .error .pathNotFound
  | .obj _, _ :: _ => .error .typeMismatch
  | .arr _, .app :: _ => .error .invalidPath
  | .arr xs, [.idx i] =>
    if i < xs.length then .ok (.arr (xs.eraseIdx i)) else .error .indexOutOfBounds
  | .arr xs, .idx i :: rest =>
    if h : i < xs.length then
      (deleteT (xs.get ⟨i, h⟩) rest).map (fun s => .arr (xs.set i s))
    else .error .indexOutOfBounds
  | .arr _, .key _ :: _ => .error .invalidPath
  | _, _ :: _ => .error .typeMismatch

/-- Modelled from the spec: the `set` path mutator, standing in for the
`replace` case of `json_patch::patch` invoked by diff.rs `apply_patch`,
with the §4.3 semantics `Replace uses set and fails if the path does not
exist` (matching validate.rs `replace_value_at_path`; the `set creates the
final key` reading of §4.1 contradicts §4.3 and the in-repo applier and is
not used).  Empty path replaces the root. -/
def setT : Json → List Tok → Json → Except PathError Json
  | _, [], v => .ok v
  | .obj m, [.key k], v =>
    if containsKV m k then .ok (.obj (mapInsert m k v)) else .error .pathNotFound
  | .obj m, .key k :: rest, v =>
    match lookupKV m k with
    | some sub => (setT sub rest v).map (fun s => .obj (mapInsert m k s))
    | none => .error .pathNotFound
  | .obj _, _ :: _, _ => .error .typeMismatch
  | .arr _, .app :: _, _ => .error .invalidPath
  | .arr xs, [.idx i], v =>
    if i < xs.length then .ok (.arr (xs.set i v)) else .error .indexOutOfBounds
  | .arr xs, .idx i :: rest, v =>
    if h : i < xs.length then
      (setT (xs.get ⟨i, h⟩) rest v).map (fun s => .arr (xs.set i s))
    else .error .indexOutOfBounds
  | .arr _, .key _ :: _, _ => .error .invalidPath
  | _, _ :: _, _ => .error .typeMismatch

/-- Modelled from the spec: one step of the Patch Applier of §4.3 —
`Add` uses `insert`, `Remove` uses `delete`, `Replace` uses `set`. -/
def applyOpS (doc : Json) : Op → Except PathError Json
  | .add p v => insertT doc p v
  | .remove p => deleteT doc p
  | .replace p v => setT doc p v

/-- Modelled from the spec: the Patch Applier of §4.3 — operations execute
strictly in sequence against a working copy and the first failure aborts the
whole patch. -/
def applyOpsS (doc : Json) : List Op → Except PathError Json
  | [] => .ok doc
  | op :: rest =>
    match applyOpS doc op with
    | .ok d => applyOpsS d rest
    | .error e => .error e

theorem lookupKV_sizeOf :
    ∀ (m : List (String × Json)) k v, lookupKV m k = some v → sizeOf v < sizeOf m := by
  intro m k v h
  induction m with
  | nil => simp [lookupKV] at h
  | cons hd tl ih =>
    obtain ⟨k1, v1⟩ := hd
    simp only [lookupKV] at h
    split at h
    · cases h; simp; omega
    · have := ih h; simp; omega

/-- Modelled from the spec: the position-wise part of the Sequence diff of
§4.2 — elements are compared index by index up to the shorter length and a
mismatched element emits `Replace(path+index, target[index])`. -/
def diffArrReps (i : Nat) : List Json → List Json → List Op
  | x :: xs, y :: ys =>
    (if x = y then [] else [.replace [.idx i] y]) ++ diffArrReps (i + 1) xs ys
  | _, _ => []

/-- Modelled from the spec: the trailing-`Add` part of the Sequence diff of
§4.2 — extra trailing target elements are added at increasing indices. -/
def diffArrAdds (i : Nat) : List Json → List Op
  | [] => []
  | v :: vs => .add [.idx i] v :: diffArrAdds (i + 1) vs

/-- Modelled from the spec: the trailing-`Remove` part of the Sequence diff
of §4.2 — extra trailing base elements (indices `n` up to `startLen - 1`)
are removed in descending index order so earlier removals do not invalidate
later ones. -/
def diffArrRems (startLen n : Nat) : List Op :=
  (List.range' n (startLen - n)).reverse.map (fun i => .remove [.idx i])

mutual

/-- Modelled from the spec: the Diff Engine of §4.2, standing in for
`json_patch::diff` invoked by diff.rs `yaml_diff` and `detect_conflicts`
(the json-patch crate is not part of this repository's sources).
Structurally equal trees yield the empty sequence; two mappings diff per key
(target-order visits, then removals of base-only keys); two sequences diff
position-wise with trailing adds or descending trailing removes; any other
combination is a single root `Replace`.  Recursive operations carry their
position as a path prefix. -/
def diffT (a b : Json) : List Op :=
  if a = b then []
  else
    match a, b with
    | .obj as, .obj bs =>
      diffObjTgt as bs ++
        as.filterMap (fun kv =>
          if (lookupKV bs kv.1).isSome then none else some (.remove [.key kv.1]))
    | .arr xs, .arr ys =>
      let n := min xs.length ys.length
      diffArrReps 0 xs ys ++ diffArrRems xs.length n ++ diffArrAdds n (ys.drop n)
    | _, b => [.replace [] b]
termination_by sizeOf a + sizeOf b
decreasing_by all_goals (simp; omega)

/-- Modelled from the spec: the target-order visit of the Mapping diff of
§4.2 — for each target key, recurse when the key exists in the base and
emit `Add(path+key, target[key])` when it does not. -/
def diffObjTgt (as : List (String × Json)) (bs : List (String × Json)) : List Op :=
  match bs with
  | [] => []
  | (k, bv) :: rest =>
    (match h : lookupKV as k with
     | some av => (diffT av bv).map (Op.withPre (.key k))
     | none => [.add [.key k] bv]) ++ diffObjTgt as rest
termination_by sizeOf as + sizeOf bs
decreasing_by
  · have := lookupKV_sizeOf as k av h
    simp at this ⊢ <;> omega
  · simp <;> omega

end

/-- Well-formedness of a tree as produced by decoding into
`serde_json::Value`: every object is a `BTreeMap` image, i.e. its keys are
strictly sorted in byte order (hence unique), recursively. -/
def wfJson : Json → Bool
  | .null => true
  | .bool _ => true
  | .num _ => true
  | .str _ => true
  | .arr xs => wfL xs
  | .obj kvs => keysSorted (kvs.map Prod.fst) && wfKV kvs
where
  keysSorted : List String → Bool
  | [] => true
  | [_] => true
  | a :: b :: rest => strLt a b && keysSorted (b :: rest)
  wfL : List Json → Bool
  | [] => true
  | x :: xs => wfJson x && wfL xs
  wfKV : List (String × Json) → Bool
  | [] => true
  | (_, v) :: rest => wfJson v && wfKV rest

theorem chLt_irrefl : ∀ l, chLt l l = false := by
  intro l
  induction l with
  | nil => rfl
  | cons a as ih => simp [chLt, ih]

theorem chLt_trans :
    ∀ a b c, chLt a b = true → chLt b c = true → chLt a c = true := by
  intro a
  induction a with
  | nil =>
    intro b c hab hbc
    cases b with
    | nil => simp [chLt] at hab
    | cons y ys =>
      cases c with
      | nil => simp [chLt] at hbc
      | cons z zs => simp [chLt]
  | cons x xs ih =>
    intro b c hab hbc
    cases b with
    | nil => simp [chLt] at hab
    | cons y ys =>
      cases c with
      | nil => simp [chLt] at hbc
      | cons z zs =>
        simp only [chLt] at hab hbc ⊢
        by_cases h1 : x.toNat < y.toNat
        · by_cases h2 : y.toNat < z.toNat
          · simp [Nat.lt_trans h1 h2]
          · by_cases h3 : z.toNat < y.toNat
            · simp [h2, h3] at hbc
            · have hx : x.toNat < z.toNat := by omega
              simp [hx]
        · by_cases h4 : y.toNat < x.toNat
          · simp [h1, h4] at hab
          · simp only [h1, h4, if_false] at hab
            by_cases h2 : y.toNat < z.toNat
            · have hx : x.toNat < z.toNat := by omega
              simp [hx]
            · by_cases h3 : z.toNat < y.toNat
              · simp [h2, h3] at hbc
              · simp only [h2, h3, if_false] at hbc
                have hx1 : ¬ x.toNat < z.toNat := by omega
                have hx2 : ¬ z.toNat < x.toNat := by omega
                simp only [hx1, hx2, if_false]
                exact ih ys zs hab hbc

theorem chLt_conn :
    ∀ a b, chLt a b = false → chLt b a = false → a = b := by
  intro a
  induction a with
  | nil =>
    intro b h1 _
    cases b with
    | nil => rfl
    | cons y ys => simp [chLt] at h1
  | cons x xs ih =>
    intro b h1 h2
    cases b with
    | nil => simp [chLt] at h2
    | cons y ys =>
      simp only [chLt] at h1 h2
      by_cases hx : x.toNat < y.toNat <;> by_cases hy : y.toNat < x.toNat <;>
        simp_all
      have hxy : x = y := by
        have : x.toNat = y.toNat := by omega
        exact Char.ofNat_toNat x ▸ Char.ofNat_toNat y ▸ congrArg Char.ofNat this
      exact ⟨hxy, ih ys h1 h2⟩

theorem strLt_irrefl (a : String) : strLt a a = false := chLt_irrefl a.data

theorem strLt_trans {a b c : String} (h1 : strLt a b = true) (h2 : strLt b c = true) :
    strLt a c = true := chLt_trans a.data b.data c.data h1 h2

theorem strLt_asymm {a b : String} (h : strLt a b = true) : strLt b a = false := by
  by_contra hc
  have := chLt_trans a.data b.data a.data h (by simpa using hc)
  simp [chLt_irrefl] at this

theorem strLt_conn {a b : String} (h1 : strLt a b = false) (h2 : strLt b a = false) :
    a = b := by
  have := chLt_conn a.data b.data h1 h2
  cases a; cases b; exact congrArg String.mk this

theorem strLt_or {a b : String} (h1 : strLt a b = false) (h2 : a ≠ b) :
    strLt b a = true := by
  by_contra hc
  exact h2 (strLt_conn h1 (by simpa using hc))

theorem lookupKV_mem :
    ∀ (m : List (String × Json)) {k v}, lookupKV m k = some v → (k, v) ∈ m := by
  intro m
  induction m with
  | nil => intro k v h; simp [lookupKV] at h
  | cons hd tl ih =>
    intro k v h
    obtain ⟨k1, v1⟩ := hd
    simp only [lookupKV] at h
    split at h
    · cases h; subst_vars; simp
    · simpa using .inr (ih h)

theorem lookupKV_eq_none :
    ∀ (m : List (String × Json)) k, lookupKV m k = none ↔ k ∉ m.map Prod.fst := by
  intro m k
  induction m with
  | nil => simp [lookupKV]
  | cons hd tl ih =>
    obtain ⟨k1, v1⟩ := hd
    simp only [lookupKV]
    split
    · subst_vars; simp
    · simpa [*] using ih

theorem lookupKV_mapInsert_self :
    ∀ (m : List (String × Json)) k v, lookupKV (mapInsert m k v) k = some v := by
  intro m k v
  induction m with
  | nil => simp [mapInsert, lookupKV]
  | cons hd tl ih =>
    obtain ⟨k1, v1⟩ := hd
    simp only [mapInsert]
    split
    · simp [lookupKV]
    · split
      · simp [lookupKV]
      · simp only [lookupKV]
        split
        · simp_all
        · exact ih

theorem lookupKV_mapInsert_ne :
    ∀ (m : List (String × Json)) k v k2, k2 ≠ k →
      lookupKV (mapInsert m k v) k2 = lookupKV m k2 := by
  intro m k v k2 hne
  induction m with
  | nil => simp [mapInsert, lookupKV, hne]
  | cons hd tl ih =>
    obtain ⟨k1, v1⟩ := hd
    simp only [mapInsert]
    split
    · simp [lookupKV, hne]
    · split
      · subst_vars; simp [lookupKV, hne]
      · simp only [lookupKV]
        split
        · rfl
        · exact ih

theorem mapInsert_mapInsert_same :
    ∀ (m : List (String × Json)) k v w,
      mapInsert (mapInsert m k v) k w = mapInsert m k w := by
  intro m k v w
  induction m with
  | nil => simp [mapInsert, strLt_irrefl]
  | cons hd tl ih =>
    obtain ⟨k1, v1⟩ := hd
    by_cases h1 : strLt k k1
    · simp [mapInsert, h1, strLt_irrefl]
    · by_cases h2 : k = k1
      · subst h2
        simp [mapInsert, h1, strLt_irrefl]
      · simp [mapInsert, h1, h2, ih]

theorem lookupKV_mapRemove_ne :
    ∀ (m : List (String × Json)) k k2, k2 ≠ k →
      lookupKV (mapRemove m k) k2 = lookupKV m k2 := by
  intro m k k2 hne
  induction m with
  | nil => simp [mapRemove]
  | cons hd tl ih =>
    obtain ⟨k1, v1⟩ := hd
    simp only [mapRemove]
    split
    · subst_vars; simp [lookupKV, hne]
    · simp only [lookupKV]
      split
      · rfl
      · exact ih

/-- Sortedness invariant of a modelled `BTreeMap`: keys strictly increase. -/
def SortedKV (m : List (String × Json)) : Prop :=
  List.Pairwise (fun a b : String × Json => strLt a.1 b.1 = true) m

theorem sortedKV_nodup {m : List (String × Json)} (h : SortedKV m) :
    (m.map Prod.fst).Nodup := by
  rw [List.Nodup, List.pairwise_map]
  refine h.imp ?_
  intro a b hab heq
  rw [heq] at hab
  simp [strLt_irrefl] at hab

theorem mem_mapInsert :
    ∀ (m : List (String × Json)) k v kv, kv ∈ mapInsert m k v → kv = (k, v) ∨ kv ∈ m := by
  intro m k v kv h
  induction m with
  | nil => simpa [mapInsert] using h
  | cons hd tl ih =>
    obtain ⟨k1, v1⟩ := hd
    by_cases h1 : strLt k k1
    · rw [mapInsert, if_pos h1] at h
      simpa using h
    · by_cases h2 : k = k1
      · subst h2
        rw [mapInsert, if_neg (by simp [h1]), if_pos rfl] at h
        rcases List.mem_cons.mp h with h | h
        · exact .inl h
        · exact .inr (by simp [h])
      · rw [mapInsert, if_neg (by simp [h1]), if_neg h2] at h
        rcases List.mem_cons.mp h with h | h
        · exact .inr (by simp [h])
        · rcases ih h with h3 | h3
          · exact .inl h3
          · exact .inr (by simp [h3])

theorem mapInsert_sorted :
    ∀ (m : List (String × Json)) k v, SortedKV m → SortedKV (mapInsert m k v) := by
  intro m k v h
  induction m with
  | nil => simp [mapInsert, SortedKV]
  | cons hd tl ih =>
    obtain ⟨k1, v1⟩ := hd
    rw [SortedKV, List.pairwise_cons] at h
    obtain ⟨h1, h2⟩ := h
    by_cases hc1 : strLt k k1
    · simp only [mapInsert, hc1, if_pos]
      refine List.Pairwise.cons ?_ (List.Pairwise.cons h1 h2)
      intro b hb
      rcases List.mem_cons.mp hb with hb | hb
      · subst hb; exact hc1
      · exact strLt_trans hc1 (h1 b hb)
    · by_cases hc2 : k = k1
      · subst hc2
        simp only [mapInsert, hc1, if_neg, if_pos]
        exact List.Pairwise.cons h1 h2
      · simp only [mapInsert, hc1, hc2, if_neg]
        refine List.Pairwise.cons ?_ (ih h2)
        intro b hb
        rcases mem_mapInsert tl k v b hb with hb1 | hb1
        · subst hb1
          exact strLt_or (by simpa using hc1) hc2
        · exact h1 b hb1

theorem mapRemove_sublist :
    ∀ (m : List (String × Json)) k, (mapRemove m k).Sublist m := by
  intro m k
  induction m with
  | nil => simp [mapRemove]
  | cons hd tl ih =>
    obtain ⟨k1, v1⟩ := hd
    by_cases h1 : k = k1
    · simp only [mapRemove, h1, if_pos]
      exact List.sublist_cons_self _ _
    · simp only [mapRemove, h1, if_neg]
      exact ih.cons₂ _

theorem mapRemove_sorted {m : List (String × Json)} (k : String) (h : SortedKV m) :
    SortedKV (mapRemove m k) :=
  List.Pairwise.sublist (mapRemove_sublist m k) h

theorem lookupKV_mapRemove_self :
    ∀ (m : List (String × Json)) k, (m.map Prod.fst).Nodup →
      lookupKV (mapRemove m k) k = none := by
  intro m k hnd
  induction m with
  | nil => simp [mapRemove, lookupKV]
  | cons hd tl ih =>
    obtain ⟨k1, v1⟩ := hd
    simp only [List.map_cons, List.nodup_cons] at hnd
    by_cases h1 : k = k1
    · subst h1
      simp only [mapRemove, if_pos rfl]
      exact (lookupKV_eq_none tl k).mpr hnd.1
    · rw [mapRemove, if_neg h1]
      rw [lookupKV, if_neg h1]
      exact ih hnd.2

theorem sorted_head_lookup_tail {k : String} {v : Json} {tl : List (String × Json)}
    (h : SortedKV ((k, v) :: tl)) : lookupKV tl k = none := by
  rw [SortedKV, List.pairwise_cons] at h
  refine (lookupKV_eq_none tl k).mpr ?_
  intro hmem
  obtain ⟨⟨k2, v2⟩, hmem2, hk2⟩ := List.mem_map.mp hmem
  have := h.1 _ hmem2
  simp only at hk2
  rw [hk2] at this
  simp [strLt_irrefl] at this

theorem sortedExt :
    ∀ (p q : List (String × Json)), SortedKV p → SortedKV q →
      (∀ k, lookupKV p k = lookupKV q k) → p = q := by
  intro p
  induction p with
  | nil =>
    intro q _ _ hpt
    cases q with
    | nil => rfl
    | cons hd tl =>
      obtain ⟨l, w⟩ := hd
      have := hpt l
      simp [lookupKV] at this
  | cons hd p2 ih =>
    intro q hp hq hpt
    obtain ⟨k, v⟩ := hd
    cases q with
    | nil =>
      have := hpt k
      simp [lookupKV] at this
    | cons hd2 q2 =>
      obtain ⟨l, w⟩ := hd2
      have hk : lookupKV ((l, w) :: q2) k = some v := by
        rw [← hpt k]; simp [lookupKV]
      have hl : lookupKV ((k, v) :: p2) l = some w := by
        rw [hpt l]; simp [lookupKV]
      have hkl : k = l := by
        by_contra hne
        have hq2k : lookupKV q2 k = some v := by
          simpa [lookupKV, Ne.symm hne, hne] using hk
        have hp2l : lookupKV p2 l = some w := by
          simpa [lookupKV, Ne.symm hne, hne] using hl
        have hm1 := lookupKV_mem q2 hq2k
        have hm2 := lookupKV_mem p2 hp2l
        rw [SortedKV, List.pairwise_cons] at hp hq
        have hlk := hq.1 _ hm1
        have hkl2 := hp.1 _ hm2
        simp only at hlk hkl2
        have := strLt_asymm hlk
        rw [this] at hkl2
        exact absurd hkl2 (by simp)
      subst hkl
      have hvw : v = w := by
        have : w = v := by simpa [lookupKV] using hk
        exact this.symm
      subst hvw
      have htail : ∀ key, lookupKV p2 key = lookupKV q2 key := by
        intro key
        by_cases hkey : key = k
        · subst hkey
          rw [sorted_head_lookup_tail hp, sorted_head_lookup_tail hq]
        · have := hpt key
          simpa [lookupKV, hkey] using this
      rw [ih q2 (List.Pairwise.sublist (List.sublist_cons_self _ _) hp)
        (List.Pairwise.sublist (List.sublist_cons_self _ _) hq) htail]

theorem keysSorted_iff :
    ∀ l : List String,
      wfJson.keysSorted l = true ↔ List.Pairwise (fun a b => strLt a b = true) l := by
  intro l
  induction l with
  | nil => simp [wfJson.keysSorted]
  | cons a t ih =>
    cases t with
    | nil => simp [wfJson.keysSorted]
    | cons b rest =>
      constructor
      · intro h
        rw [wfJson.keysSorted, Bool.and_eq_true] at h
        have hp := ih.mp h.2
        refine List.Pairwise.cons ?_ hp
        intro x hx
        rcases List.mem_cons.mp hx with hx | hx
        · subst hx; exact h.1
        · exact strLt_trans h.1 ((List.pairwise_cons.mp hp).1 x hx)
      · intro h
        rw [wfJson.keysSorted, Bool.and_eq_true]
        exact ⟨(List.pairwise_cons.mp h).1 b (by simp), ih.mpr h.tail⟩

theorem wfKV_iff :
    ∀ m : List (String × Json),
      wfJson.wfKV m = true ↔ ∀ kv ∈ m, wfJson kv.2 = true := by
  intro m
  induction m with
  | nil => simp [wfJson.wfKV]
  | cons hd tl ih =>
    obtain ⟨k, v⟩ := hd
    rw [wfJson.wfKV, Bool.and_eq_true, ih]
    constructor
    · rintro ⟨h1, h2⟩ kv hkv
      rcases List.mem_cons.mp hkv with h | h
      · subst h; exact h1
      · exact h2 kv h
    · intro h
      exact ⟨h (k, v) (by simp), fun kv hkv => h kv (by simp [hkv])⟩

theorem wf_obj_iff (m : List (String × Json)) :
    wfJson (.obj m) = true ↔ SortedKV m ∧ ∀ kv ∈ m, wfJson kv.2 = true := by
  rw [wfJson, Bool.and_eq_true, keysSorted_iff, wfKV_iff, List.pairwise_map]
  exact Iff.rfl

theorem wfL_iff :
    ∀ xs : List Json, wfJson.wfL xs = true ↔ ∀ x ∈ xs, wfJson x = true := by
  intro xs
  induction xs with
  | nil => simp [wfJson.wfL]
  | cons x t ih =>
    rw [wfJson.wfL, Bool.and_eq_true, ih]
    constructor
    · rintro ⟨h1, h2⟩ y hy
      rcases List.mem_cons.mp hy with h | h
      · subst h; exact h1
      · exact h2 y h
    · intro h
      exact ⟨h x (by simp), fun y hy => h y (by simp [hy])⟩

theorem applyOpsS_append :
    ∀ (l1 l2 : List Op) (doc : Json),
      applyOpsS doc (l1 ++ l2) =
        match applyOpsS doc l1 with
        | .ok d => applyOpsS d l2
        | .error e => .error e := by
  intro l1
  induction l1 with
  | nil => intro l2 doc; rfl
  | cons op rest ih =>
    intro l2 doc
    rw [List.cons_append, applyOpsS, applyOpsS]
    cases applyOpS doc op with
    | ok d => exact ih l2 d
    | error e => rfl

/-- Holds of an operation unless it is a `Remove` with an empty path; every
operation the diff engine emits satisfies it. -/
def Op.remNonempty : Op → Prop
  | .remove p => p ≠ []
  | _ => True

theorem withPre_remNonempty (t : Tok) (op : Op) : (op.withPre t).remNonempty := by
  cases op <;> simp [Op.withPre, Op.remNonempty]

theorem diffObjTgt_remNonempty :
    ∀ (bs as : List (String × Json)) op, op ∈ diffObjTgt as bs → op.remNonempty := by
  intro bs
  induction bs with
  | nil =>
    intro as op h
    rw [diffObjTgt] at h
    simp at h
  | cons hd rest ih =>
    intro as op h
    obtain ⟨k, bv⟩ := hd
    rw [diffObjTgt] at h
    rcases List.mem_append.mp h with h | h
    · split at h
      · obtain ⟨op2, _, hop⟩ := List.mem_map.mp h
        exact hop ▸ withPre_remNonempty _ op2
      · simp at h
        subst h
        trivial
    · exact ih as op h

theorem diffArrReps_remNonempty :
    ∀ (xs ys : List Json) i op, op ∈ diffArrReps i xs ys → op.remNonempty := by
  intro xs
  induction xs with
  | nil => intro ys i op h; simp [diffArrReps] at h
  | cons x xt ih =>
    intro ys i op h
    cases ys with
    | nil => simp [diffArrReps] at h
    | cons y yt =>
      rw [diffArrReps] at h
      rcases List.mem_append.mp h with h | h
      · split at h <;> simp at h
        subst h; trivial
      · exact ih yt (i + 1) op h

theorem diffArrAdds_remNonempty :
    ∀ (vs : List Json) i op, op ∈ diffArrAdds i vs → op.remNonempty := by
  intro vs
  induction vs with
  | nil => intro i op h; simp [diffArrAdds] at h
  | cons v vt ih =>
    intro i op h
    rw [diffArrAdds] at h
    rcases List.mem_cons.mp h with h | h
    · subst h; trivial
    · exact ih (i + 1) op h

theorem diffArrRems_remNonempty (startLen n : Nat) (op : Op)
    (h : op ∈ diffArrRems startLen n) : op.remNonempty := by
  obtain ⟨i, _, hop⟩ := List.mem_map.mp h
  subst hop
  simp [Op.remNonempty]

theorem diffT_remNonempty : ∀ (a b : Json) op, op ∈ diffT a b → op.remNonempty := by
  intro a b op h
  rw [diffT.eq_def] at h
  by_cases hab : a = b
  · simp [hab] at h
  · rw [if_neg hab] at h
    cases a <;> cases b <;>
      first
      | (simp at h; subst h; trivial)
      | skip
    · rename_i xs ys
      simp only at h
      rcases List.mem_append.mp h with h | h
      · rcases List.mem_append.mp h with h | h
        · exact diffArrReps_remNonempty xs ys 0 op h
        · exact diffArrRems_remNonempty _ _ op h
      · exact diffArrAdds_remNonempty _ _ op h
    · rename_i as bs
      rcases List.mem_append.mp h with h | h
      · exact diffObjTgt_remNonempty bs as op h
      · obtain ⟨kv, _, hop⟩ := List.mem_filterMap.mp h
        split at hop
        · simp at hop
        · simp at hop
          subst hop
          simp [Op.remNonempty]

theorem mapInsert_self_eq :
    ∀ (m : List (String × Json)) k sub, SortedKV m → lookupKV m k = some sub →
      mapInsert m k sub = m := by
  intro m k sub hs hl
  induction m with
  | nil => simp [lookupKV] at hl
  | cons hd tl ih =>
    obtain ⟨k1, v1⟩ := hd
    by_cases h : k = k1
    · subst h
      rw [lookupKV, if_pos rfl] at hl
      cases hl
      rw [mapInsert, if_neg (by simp [strLt_irrefl]), if_pos rfl]
    · rw [lookupKV, if_neg h] at hl
      have hmem := lookupKV_mem tl hl
      rw [SortedKV, List.pairwise_cons] at hs
      have hk1k : strLt k1 k = true := hs.1 _ hmem
      rw [mapInsert, if_neg (by simp [strLt_asymm hk1k]), if_neg h,
        ih hs.2 hl]

theorem applyOpS_withPre_key {m : List (String × Json)} {k : String} {sub : Json}
    (hl : lookupKV m k = some sub) (op : Op) (hop : op.remNonempty) :
    applyOpS (.obj m) (op.withPre (.key k)) =
      (applyOpS sub op).map (fun s => .obj (mapInsert m k s)) := by
  cases op with
  | add p v =>
    cases p with
    | nil => simp [applyOpS, Op.withPre, insertT, Except.map]
    | cons t rest => simp [applyOpS, Op.withPre, insertT, hl]
  | remove p =>
    cases p with
    | nil => exact absurd rfl hop
    | cons t rest => simp [applyOpS, Op.withPre, deleteT, hl]
  | replace p v =>
    cases p with
    | nil => simp [applyOpS, Op.withPre, setT, containsKV, hl, Except.map]
    | cons t rest => simp [applyOpS, Op.withPre, setT, hl]

theorem applyOpsS_withPre_key :
    ∀ (ops : List Op) (m : List (String × Json)) (k : String) (sub : Json),
      SortedKV m → lookupKV m k = some sub → (∀ op ∈ ops, op.remNonempty) →
      applyOpsS (.obj m) (ops.map (Op.withPre (.key k))) =
        (applyOpsS sub ops).map (fun s => .obj (mapInsert m k s)) := by
  intro ops
  induction ops with
  | nil =>
    intro m k sub hs hl _
    simp [applyOpsS, Except.map, mapInsert_self_eq m k sub hs hl]
  | cons op rest ih =>
    intro m k sub hs hl hops
    rw [List.map_cons, applyOpsS,
      applyOpS_withPre_key hl op (hops op (by simp))]
    rw [applyOpsS]
    cases h1 : applyOpS sub op with
    | error e => simp [Except.map]
    | ok s1 =>
      simp only [Except.map]
      rw [ih (mapInsert m k s1) k s1 (mapInsert_sorted m k s1 hs)
        (lookupKV_mapInsert_self m k s1) (fun o ho => hops o (by simp [ho]))]
      cases applyOpsS s1 rest with
      | error e => simp [Except.map]
      | ok r => simp [Except.map, mapInsert_mapInsert_same]

/-- The base-only-key removals of the Mapping diff of §4.2 (the
`filterMap` inside `diffT`). -/
def remOps (as bs : List (String × Json)) : List Op :=
  as.filterMap (fun kv =>
    if (lookupKV bs kv.1).isSome then none else some (.remove [.key kv.1]))

theorem diffT_obj_eq {as bs : List (String × Json)}
    (h : Json.obj as ≠ Json.obj bs) :
    diffT (.obj as) (.obj bs) = diffObjTgt as bs ++ remOps as bs := by
  rw [diffT.eq_def, if_neg h]
  rfl

theorem applyOpsS_diffObjTgt :
    ∀ (bs as m : List (String × Json)),
      SortedKV m →
      (bs.map Prod.fst).Nodup →
      (∀ kv ∈ bs, lookupKV m kv.1 = lookupKV as kv.1) →
      (∀ kv ∈ bs, ∀ av, lookupKV as kv.1 = some av →
        applyOpsS av (diffT av kv.2) = .ok kv.2) →
      applyOpsS (.obj m) (diffObjTgt as bs) =
        .ok (.obj (bs.foldl (fun acc kv => mapInsert acc kv.1 kv.2) m)) := by
  intro bs
  induction bs with
  | nil =>
    intro as m _ _ _ _
    rw [diffObjTgt]
    simp [applyOpsS]
  | cons hd rest ih =>
    intro as m hs hnd hlk happ
    obtain ⟨k, bv⟩ := hd
    rw [diffObjTgt]
    have hmk : lookupKV m k = lookupKV as k := hlk (k, bv) (by simp)
    have hkrest : ∀ kv ∈ rest, kv.1 ≠ k := by
      intro kv hkv heq
      simp only [List.map_cons, List.nodup_cons] at hnd
      exact hnd.1 (heq ▸ List.mem_map_of_mem Prod.fst hkv)
    split
    · rename_i av h
      rw [applyOpsS_append,
        applyOpsS_withPre_key (diffT av bv) m k av hs (hmk.trans h)
          (fun op hop => diffT_remNonempty av bv op hop),
        happ (k, bv) (by simp) av h]
      simp only [Except.map]
      rw [List.foldl_cons]
      exact ih as (mapInsert m k bv) (mapInsert_sorted m k bv hs)
        (by simpa using hnd.of_cons)
        (fun kv hkv => by
          rw [lookupKV_mapInsert_ne m k bv kv.1 (hkrest kv hkv)]
          exact hlk kv (by simp [hkv]))
        (fun kv hkv => happ kv (by simp [hkv]))
    · rename_i h
      rw [applyOpsS_append]
      have h1 : applyOpsS (.obj m) [Op.add [.key k] bv] =
          .ok (.obj (mapInsert m k bv)) := by
        simp [applyOpsS, applyOpS, insertT]
      rw [h1]
      rw [List.foldl_cons]
      exact ih as (mapInsert m k bv) (mapInsert_sorted m k bv hs)
        (by simpa using hnd.of_cons)
        (fun kv hkv => by
          rw [lookupKV_mapInsert_ne m k bv kv.1 (hkrest kv hkv)]
          exact hlk kv (by simp [hkv]))
        (fun kv hkv => happ kv (by simp [hkv]))

theorem applyOpsS_remOps :
    ∀ (as : List (String × Json)) (bs M : List (String × Json)),
      (as.map Prod.fst).Nodup →
      (∀ kv ∈ as, (lookupKV bs kv.1).isSome = false → containsKV M kv.1 = true) →
      applyOpsS (.obj M) (remOps as bs) =
        .ok (.obj (as.foldl
          (fun acc kv =>
            if (lookupKV bs kv.1).isSome then acc else mapRemove acc kv.1) M)) := by
  intro as
  induction as with
  | nil =>
    intro bs M _ _
    simp [remOps, applyOpsS]
  | cons hd rest ih =>
    intro bs M hnd hcont
    obtain ⟨k, av⟩ := hd
    simp only [List.map_cons, List.nodup_cons] at hnd
    rw [remOps, List.filterMap_cons, List.foldl_cons]
    by_cases hbs : (lookupKV bs (k, av).1).isSome
    · rw [if_pos hbs]
      simp only [hbs, if_true]
      exact ih bs M hnd.2 (fun kv hkv h => hcont kv (by simp [hkv]) h)
    · rw [if_neg hbs]
      simp only [hbs, if_false]
      have hc : containsKV M k = true :=
        hcont (k, av) (by simp) (by simpa using hbs)
      rw [applyOpsS, applyOpS, deleteT, if_pos hc]
      exact ih bs (mapRemove M k) hnd.2 (fun kv hkv h => by
        rw [containsKV, lookupKV_mapRemove_ne M k kv.1
          (fun heq => hnd.1 (heq ▸ List.mem_map_of_mem Prod.fst hkv))]
        exact hcont kv (by simp [hkv]) h)

theorem lookupKV_foldl_insert :
    ∀ (bs m : List (String × Json)) key, (bs.map Prod.fst).Nodup →
      lookupKV (bs.foldl (fun acc kv => mapInsert acc kv.1 kv.2) m) key =
        match lookupKV bs key with
        | some v => some v
        | none => lookupKV m key := by
  intro bs
  induction bs with
  | nil => intro m key _; simp [lookupKV]
  | cons hd rest ih =>
    intro m key hnd
    obtain ⟨k, bv⟩ := hd
    simp only [List.map_cons, List.nodup_cons] at hnd
    rw [List.foldl_cons, ih (mapInsert m k bv) key hnd.2]
    by_cases hk : key = k
    · subst hk
      have hrest : lookupKV rest key = none :=
        (lookupKV_eq_none rest key).mpr hnd.1
      rw [hrest, lookupKV_mapInsert_self]
      simp [lookupKV]
    · rw [lookupKV, if_neg hk]
      cases lookupKV rest key with
      | some v => rfl
      | none => simp [lookupKV_mapInsert_ne m k bv key hk]

theorem sorted_foldl_insert :
    ∀ (bs m : List (String × Json)), SortedKV m →
      SortedKV (bs.foldl (fun acc kv => mapInsert acc kv.1 kv.2) m) := by
  intro bs
  induction bs with
  | nil => intro m h; exact h
  | cons hd rest ih =>
    intro m h
    rw [List.foldl_cons]
    exact ih _ (mapInsert_sorted m hd.1 hd.2 h)

theorem sorted_foldl_remove :
    ∀ (as : List (String × Json)) (bs M : List (String × Json)), SortedKV M →
      SortedKV (as.foldl
        (fun acc kv =>
          if (lookupKV bs kv.1).isSome then acc else mapRemove acc kv.1) M) := by
  intro as
  induction as with
  | nil => intro bs M h; exact h
  | cons hd rest ih =>
    intro bs M h
    rw [List.foldl_cons]
    by_cases hbs : (lookupKV bs hd.1).isSome
    · rw [if_pos hbs]; exact ih bs M h
    · rw [if_neg hbs]; exact ih bs _ (mapRemove_sorted hd.1 h)

theorem nodup_mapRemove {M : List (String × Json)} (k : String)
    (h : (M.map Prod.fst).Nodup) : ((mapRemove M k).map Prod.fst).Nodup :=
  List.Nodup.sublist (List.Sublist.map Prod.fst (mapRemove_sublist M k)) h

theorem lookupKV_foldl_remove :
    ∀ (as : List (String × Json)) (bs M : List (String × Json)) key,
      (as.map Prod.fst).Nodup → (M.map Prod.fst).Nodup →
      lookupKV (as.foldl
        (fun acc kv =>
          if (lookupKV bs kv.1).isSome then acc else mapRemove acc kv.1) M) key =
        if key ∈ as.map Prod.fst ∧ lookupKV bs key = none then none
        else lookupKV M key := by
  intro as
  induction as with
  | nil =>
    intro bs M key _ _
    simp
  | cons hd rest ih =>
    intro bs M key hnd hM
    obtain ⟨k, av⟩ := hd
    simp only [List.map_cons, List.nodup_cons] at hnd
    rw [List.foldl_cons]
    by_cases hbs : (lookupKV bs (k, av).1).isSome
    · rw [if_pos hbs, ih bs M key hnd.2 hM]
      by_cases hkey : key = k
      · subst hkey
        have h1 : ¬ (key ∈ rest.map Prod.fst ∧ lookupKV bs key = none) := by
          rintro ⟨hmem, _⟩
          exact hnd.1 hmem
        have h2 : ¬ (key ∈ (key, av).1 :: rest.map Prod.fst ∧ lookupKV bs key = none) := by
          rintro ⟨_, hnone⟩
          rw [hnone] at hbs
          simp at hbs
        rw [if_neg h1]
        simp only [List.map_cons]
        rw [if_neg h2]
      · have hiff : (key ∈ rest.map Prod.fst ∧ lookupKV bs key = none) ↔
            (key ∈ (k, av).1 :: rest.map Prod.fst ∧ lookupKV bs key = none) := by
          constructor
          · rintro ⟨hm, hn⟩; exact ⟨by simp [hm], hn⟩
          · rintro ⟨hm, hn⟩
            rcases List.mem_cons.mp hm with hm | hm
            · exact absurd hm hkey
            · exact ⟨hm, hn⟩
        simp only [List.map_cons]
        by_cases hc : key ∈ rest.map Prod.fst ∧ lookupKV bs key = none
        · rw [if_pos hc, if_pos (hiff.mp hc)]
        · rw [if_neg hc, if_neg (fun h => hc (hiff.mpr h))]
    · rw [if_neg hbs, ih bs (mapRemove M k) key hnd.2 (nodup_mapRemove k hM)]
      by_cases hkey : key = k
      · subst hkey
        have h1 : ¬ (key ∈ rest.map Prod.fst ∧ lookupKV bs key = none) := by
          rintro ⟨hmem, _⟩
          exact hnd.1 hmem
        have h2 : key ∈ (key, av).1 :: rest.map Prod.fst ∧ lookupKV bs key = none := by
          refine ⟨by simp, ?_⟩
          simpa using hbs
        rw [if_neg h1, lookupKV_mapRemove_self M key hM]
        simp only [List.map_cons]
        rw [if_pos h2]
      · rw [lookupKV_mapRemove_ne M k key hkey]
        have hiff : (key ∈ rest.map Prod.fst ∧ lookupKV bs key = none) ↔
            (key ∈ (k, av).1 :: rest.map Prod.fst ∧ lookupKV bs key = none) := by
          constructor
          · rintro ⟨hm, hn⟩; exact ⟨by simp [hm], hn⟩
          · rintro ⟨hm, hn⟩
            rcases List.mem_cons.mp hm with hm | hm
            · exact absurd hm hkey
            · exact ⟨hm, hn⟩
        simp only [List.map_cons]
        by_cases hc : key ∈ rest.map Prod.fst ∧ lookupKV bs key = none
        · rw [if_pos hc, if_pos (hiff.mp hc)]
        · rw [if_neg hc, if_neg (fun h => hc (hiff.mpr h))]

/-- Position-wise overwrite of a prefix, describing the combined effect of
the `Replace` operations of the position-wise Sequence diff. -/
def zipReplace : List Json → List Json → List Json
  | xs, [] => xs
  | [], _ => []
  | _ :: xs, y :: ys => y :: zipReplace xs ys

theorem zipReplace_eq :
    ∀ xs ys : List Json, zipReplace xs ys = ys.take xs.length ++ xs.drop ys.length := by
  intro xs
  induction xs with
  | nil => intro ys; cases ys <;> simp [zipReplace]
  | cons x xt ih =>
    intro ys
    cases ys with
    | nil => simp [zipReplace]
    | cons y yt => simp [zipReplace, ih yt]

theorem set_append_cons :
    ∀ (pre l : List Json) (x y : Json), (pre ++ x :: l).set pre.length y = pre ++ y :: l := by
  intro pre
  induction pre with
  | nil => intro l x y; rfl
  | cons p ps ih => intro l x y; simp [List.set, ih]

theorem eraseIdx_append_last :
    ∀ (l : List Json) (e : Json), (l ++ [e]).eraseIdx l.length = l := by
  intro l e
  induction l with
  | nil => rfl
  | cons x xs ih => simp [List.eraseIdx, ih]

theorem applyOpsS_append_ok {l1 : List Op} {doc d : Json} (l2 : List Op)
    (h : applyOpsS doc l1 = .ok d) :
    applyOpsS doc (l1 ++ l2) = applyOpsS d l2 := by
  rw [applyOpsS_append, h]

theorem applyOpsS_singleton (doc : Json) (op : Op) :
    applyOpsS doc [op] =
      match applyOpS doc op with
      | .ok d => .ok d
      | .error e => .error e := by
  rw [applyOpsS]
  cases applyOpS doc op <;> rfl

theorem applyOpsS_cons_ok {doc d : Json} {op : Op} (rest : List Op)
    (h : applyOpS doc op = .ok d) :
    applyOpsS doc (op :: rest) = applyOpsS d rest := by
  rw [applyOpsS, h]

theorem applyOpsS_diffArrReps :
    ∀ (xs ys pre : List Json),
      applyOpsS (.arr (pre ++ xs)) (diffArrReps pre.length xs ys) =
        .ok (.arr (pre ++ zipReplace xs ys)) := by
  intro xs
  induction xs with
  | nil =>
    intro ys pre
    cases ys <;> simp [diffArrReps, applyOpsS, zipReplace]
  | cons x xt ih =>
    intro ys pre
    cases ys with
    | nil => simp [diffArrReps, applyOpsS, zipReplace]
    | cons y yt =>
      rw [diffArrReps]
      by_cases hxy : x = y
      · subst hxy
        rw [if_pos rfl, List.nil_append]
        have h2 : Json.arr (pre ++ x :: xt) = .arr ((pre ++ [x]) ++ xt) := by simp
        have h3 : pre.length + 1 = (pre ++ [x]).length := by simp
        rw [h2, h3, ih yt (pre ++ [x])]
        simp [zipReplace]
      · rw [if_neg hxy, List.singleton_append]
        have h1 : applyOpS (.arr (pre ++ x :: xt)) (Op.replace [.idx pre.length] y) =
            .ok (.arr (pre ++ y :: xt)) := by
          have hlt : pre.length < (pre ++ x :: xt).length := by simp
          simp only [applyOpS, setT, if_pos hlt]
          rw [set_append_cons]
        rw [applyOpsS_cons_ok _ h1]
        have h2 : Json.arr (pre ++ y :: xt) = .arr ((pre ++ [y]) ++ xt) := by simp
        have h3 : pre.length + 1 = (pre ++ [y]).length := by simp
        rw [h2, h3, ih yt (pre ++ [y])]
        simp [zipReplace]

theorem applyOpsS_diffArrRems :
    ∀ (extra base : List Json),
      applyOpsS (.arr (base ++ extra))
        (diffArrRems (base.length + extra.length) base.length) = .ok (.arr base) := by
  intro extra
  induction extra using List.reverseRecOn with
  | nil => intro base; simp [diffArrRems, applyOpsS]
  | append_singleton ex e ih =>
    intro base
    have hcount : base.length + (ex ++ [e]).length - base.length = ex.length + 1 := by
      simp
    rw [diffArrRems, hcount]
    have hrange : List.range' base.length (ex.length + 1) =
        List.range' base.length ex.length ++ [base.length + ex.length] := by
      simpa using @List.range'_concat 1 base.length ex.length
    rw [hrange, List.reverse_append]
    simp only [List.reverse_cons, List.reverse_nil, List.nil_append, List.singleton_append,
      List.map_cons]
    have hidx : base.length + ex.length < (base ++ (ex ++ [e])).length := by
      simp
    have hstep : applyOpS (.arr (base ++ (ex ++ [e])))
        (.remove [.idx (base.length + ex.length)]) = .ok (.arr (base ++ ex)) := by
      simp only [applyOpS, deleteT, if_pos hidx]
      have h2 : base ++ (ex ++ [e]) = (base ++ ex) ++ [e] := by simp
      rw [h2]
      have hlen : base.length + ex.length = (base ++ ex).length := by simp
      rw [hlen, eraseIdx_append_last]
    rw [applyOpsS_cons_ok _ hstep]
    have hrems : (List.range' base.length ex.length).reverse.map
        (fun i => Op.remove [.idx i]) = diffArrRems (base.length + ex.length) base.length := by
      rw [diffArrRems]
      have h4 : base.length + ex.length - base.length = ex.length := by omega
      rw [h4]
    rw [hrems]
    exact ih base

theorem applyOpsS_diffArrAdds :
    ∀ (vs base : List Json),
      applyOpsS (.arr base) (diffArrAdds base.length vs) = .ok (.arr (base ++ vs)) := by
  intro vs
  induction vs with
  | nil => intro base; simp [diffArrAdds, applyOpsS]
  | cons v vt ih =>
    intro base
    rw [diffArrAdds]
    have hstep : applyOpS (.arr base) (.add [.idx base.length] v) = .ok (.arr (base ++ [v])) := by
      simp [applyOpS, insertT]
    rw [applyOpsS_cons_ok _ hstep]
    have h3 : base.length + 1 = (base ++ [v]).length := by simp
    rw [h3, ih (base ++ [v])]
    simp

theorem diffT_arr_eq {xs ys : List Json} (h : Json.arr xs ≠ Json.arr ys) :
    diffT (.arr xs) (.arr ys) =
      (diffArrReps 0 xs ys ++ diffArrRems xs.length (min xs.length ys.length)) ++
        diffArrAdds (min xs.length ys.length) (ys.drop (min xs.length ys.length)) := by
  rw [diffT.eq_def, if_neg h]

theorem applyOpsS_diffT_arr (xs ys : List Json) (h : Json.arr xs ≠ Json.arr ys) :
    applyOpsS (.arr xs) (diffT (.arr xs) (.arr ys)) = .ok (.arr ys) := by
  rw [diffT_arr_eq h]
  have hreps := applyOpsS_diffArrReps xs ys []
  simp only [List.nil_append, List.length_nil] at hreps
  by_cases hle : xs.length ≤ ys.length
  · have hmin : min xs.length ys.length = xs.length := Nat.min_eq_left hle
    have hdrop : xs.drop ys.length = [] := List.drop_eq_nil_of_le hle
    have hrems : diffArrRems xs.length (min xs.length ys.length) = [] := by
      rw [hmin, diffArrRems]
      simp
    rw [hrems, List.append_nil, applyOpsS_append_ok _ hreps, zipReplace_eq, hdrop,
      List.append_nil]
    have hlen : min xs.length ys.length = (ys.take xs.length).length := by
      simp [List.length_take, Nat.min_comm]
    rw [hlen, applyOpsS_diffArrAdds]
    rw [← hlen, hmin, List.take_append_drop]
  · have hlt : ys.length ≤ xs.length := Nat.le_of_lt (Nat.lt_of_not_le hle)
    have hmin : min xs.length ys.length = ys.length := Nat.min_eq_right hlt
    have htake : ys.take xs.length = ys := List.take_of_length_le hlt
    have hdropy : ys.drop (min xs.length ys.length) = [] := by
      rw [hmin]; exact List.drop_length ys
    rw [hdropy]
    have hadds : diffArrAdds (min xs.length ys.length) ([] : List Json) = [] := rfl
    rw [hadds, List.append_nil, applyOpsS_append_ok _ hreps, zipReplace_eq, htake, hmin]
    have hlen : xs.length = ys.length + (xs.drop ys.length).length := by
      simp [List.length_drop]
      omega
    rw [hlen]
    exact applyOpsS_diffArrRems (xs.drop ys.length) ys

theorem applyOpsS_diffT_fuel :
    ∀ (fuel : Nat) (b a : Json), sizeOf b ≤ fuel → wfJson a = true → wfJson b = true →
      applyOpsS a (diffT a b) = .ok b := by
  intro fuel
  induction fuel with
  | zero =>
    intro b a hsz _ _
    exact absurd hsz (by cases b <;> simp)
  | succ n ih =>
    intro b a hsz hwa hwb
    by_cases hab : a = b
    · subst hab
      rw [diffT.eq_def, if_pos rfl]
      rfl
    · cases a with
      | obj as =>
        cases b with
        | obj bs =>
          obtain ⟨hsa, hva⟩ := (wf_obj_iff as).mp hwa
          obtain ⟨hsb, hvb⟩ := (wf_obj_iff bs).mp hwb
          have hnda := sortedKV_nodup hsa
          have hndb := sortedKV_nodup hsb
          have hIH : ∀ kv ∈ bs, ∀ av, lookupKV as kv.1 = some av →
              applyOpsS av (diffT av kv.2) = .ok kv.2 := by
            intro kv hkv av hl
            refine ih kv.2 av ?_ ?_ (hvb kv hkv)
            · have h1 := List.sizeOf_lt_of_mem hkv
              have h2 : sizeOf kv.2 < sizeOf kv := by
                obtain ⟨x, y⟩ := kv
                simp
              have h3 : sizeOf (Json.obj bs) = 1 + sizeOf bs := by simp
              omega
            · exact hva (kv.1, av) (lookupKV_mem as hl)
          rw [diffT_obj_eq hab,
            applyOpsS_append_ok _
              (applyOpsS_diffObjTgt bs as as hsa hndb (fun kv _ => rfl) hIH)]
          have hcont : ∀ kv ∈ as, (lookupKV bs kv.1).isSome = false →
              containsKV (bs.foldl (fun acc kv => mapInsert acc kv.1 kv.2) as) kv.1
                = true := by
            intro kv hkv hmiss
            rw [containsKV, lookupKV_foldl_insert bs as kv.1 hndb]
            have hbsnone : lookupKV bs kv.1 = none := by
              cases hx : lookupKV bs kv.1 with
              | none => rfl
              | some v => rw [hx] at hmiss; simp at hmiss
            rw [hbsnone]
            have hassome : lookupKV as kv.1 ≠ none := fun hx =>
              ((lookupKV_eq_none as kv.1).mp hx) (List.mem_map_of_mem Prod.fst hkv)
            cases hx : lookupKV as kv.1 with
            | none => exact absurd hx hassome
            | some v => simp
          rw [applyOpsS_remOps as bs _ hnda hcont]
          have hsM : SortedKV (bs.foldl (fun acc kv => mapInsert acc kv.1 kv.2) as) :=
            sorted_foldl_insert bs as hsa
          have hfinal :
              (as.foldl (fun acc kv =>
                if (lookupKV bs kv.1).isSome then acc else mapRemove acc kv.1)
                (bs.foldl (fun acc kv => mapInsert acc kv.1 kv.2) as)) = bs := by
            apply sortedExt _ bs (sorted_foldl_remove as bs _ hsM) hsb
            intro key
            rw [lookupKV_foldl_remove as bs _ key hnda (sortedKV_nodup hsM),
              lookupKV_foldl_insert bs as key hndb]
            cases hbs : lookupKV bs key with
            | some v =>
              rw [if_neg (by simp)]
            | none =>
              by_cases hmem : key ∈ as.map Prod.fst
              · rw [if_pos ⟨hmem, rfl⟩]
              · rw [if_neg (by rintro ⟨hm, _⟩; exact hmem hm)]
                exact (lookupKV_eq_none as key).mpr hmem
          rw [hfinal]
        | null => rw [diffT.eq_def, if_neg hab]; rfl
        | bool x => rw [diffT.eq_def, if_neg hab]; rfl
        | num x => rw [diffT.eq_def, if_neg hab]; rfl
        | str x => rw [diffT.eq_def, if_neg hab]; rfl
        | arr ys => rw [diffT.eq_def, if_neg hab]; rfl
      | arr xs =>
        cases b with
        | arr ys => exact applyOpsS_diffT_arr xs ys hab
        | null => rw [diffT.eq_def, if_neg hab]; rfl
        | bool x => rw [diffT.eq_def, if_neg hab]; rfl
        | num x => rw [diffT.eq_def, if_neg hab]; rfl
        | str x => rw [diffT.eq_def, if_neg hab]; rfl
        | obj bs => rw [diffT.eq_def, if_neg hab]; rfl
      | null => rw [diffT.eq_def, if_neg hab]; rfl
      | bool x => rw [diffT.eq_def, if_neg hab]; rfl
      | num x => rw [diffT.eq_def, if_neg hab]; rfl
      | str x => rw [diffT.eq_def, if_neg hab]; rfl

/-- Core diff-then-apply fact: on well-formed trees, applying the
spec-modelled Patch Applier to the output of the spec-modelled Diff Engine
transforms the base tree into exactly the target tree. -/
theorem applyOpsS_diffT (a b : Json) (ha : wfJson a = true) (hb : wfJson b = true) :
    applyOpsS a (diffT a b) = .ok b :=
  applyOpsS_diffT_fuel (sizeOf b) b a le_rfl ha hb

/-- Model of diff.rs `yaml_diff` (lines 23-43).  The YAML decoder is the
composite `serde_yaml::from_str` followed by `serde_json::to_value` and is
abstracted as `dec` (any of its failures is `none`); the JSON serialization
of the patch is abstracted as `pEnc`.  On decode failure of either input the
function returns the literal `[]`. -/
def yamlDiffText (dec : String → Option Json) (pEnc : List Op → String)
    (baseYaml editedYaml : String) : String :=
  match dec baseYaml, dec editedYaml with
  | some a, some b => pEnc (diffT a b)
  | _, _ => "[]"

/-- Model of diff.rs `apply_patch` (lines 56-79), with the YAML decoder
`dec`, the YAML encoder `enc` (`serde_yaml::to_string`), and the patch
parser `pDec` (`serde_json::from_str::<Patch>`) abstracted; the patch
application itself is the spec-modelled applier standing in for
`json_patch::patch`.  Every failure returns the original document text. -/
def applyPatchText (dec : String → Option Json) (enc : Json → String)
    (pDec : String → Option (List Op)) (yaml patchJson : String) : String :=
  match dec yaml with
  | none => yaml
  | some v =>
    match pDec patchJson with
    | none => yaml
    | some ops =>
      match applyOpsS v ops with
      | .ok r => enc r
      | .error _ => yaml

/-- The `Replace`-projection used by diff.rs `detect_conflicts`
(lines 111-118): a `Replace` yields its `{path, value}` pair, `Add` and
`Remove` yield nothing. -/
def replaceEntry : Op → Option (List Tok × Json)
  | .replace p v => some (p, v)
  | _ => none

/-- Whether an operation is a `Replace`. -/
def Op.isReplace : Op → Bool
  | .replace _ _ => true
  | _ => false

/-- The conflict list of diff.rs `detect_conflicts`: one `{path, value}`
entry per `Replace` operation of the diff, in diff order. -/
def conflictEntries (ops : List Op) : List (List Tok × Json) :=
  ops.filterMap replaceEntry

/-- Value-level model of diff.rs `detect_conflicts` (lines 92-128) on two
decoded trees: the conflict entries are the `Replace` operations of the
diff, and `has_conflict` is true exactly when that list is nonempty. -/
def detectConflictsVal (a b : Json) : Bool × List (List Tok × Json) :=
  let c := conflictEntries (diffT a b)
  (!c.isEmpty, c)

/-- Text-level model of diff.rs `detect_conflicts`, with the decoder and the
JSON rendering of the result object abstracted; on decode failure of either
input it returns the literal fail-soft object. -/
def detectConflictsText (dec : String → Option Json)
    (render : Bool × List (List Tok × Json) → String)
    (baseYaml editedYaml : String) : String :=
  match dec baseYaml, dec editedYaml with
  | some a, some b => render (detectConflictsVal a b)
  | _, _ => "\x7b\"has_conflict\": false, \"conflicts\": []\x7d"

theorem conflictEntries_length :
    ∀ ops : List Op,
      (conflictEntries ops).length = (ops.filter (fun op => op.isReplace)).length := by
  intro ops
  induction ops with
  | nil => rfl
  | cons op rest ih =>
    cases op <;> simp [conflictEntries, replaceEntry, Op.isReplace, List.filterMap_cons,
      List.filter_cons] <;> simpa [conflictEntries] using ih

theorem conflictEntries_mem :
    ∀ (ops : List Op) (p : List Tok) (v : Json),
      (p, v) ∈ conflictEntries ops ↔ Op.replace p v ∈ ops := by
  intro ops p v
  induction ops with
  | nil => simp [conflictEntries]
  | cons op rest ih =>
    cases op with
    | add q w =>
      simp only [conflictEntries, List.filterMap_cons, replaceEntry]
      rw [conflictEntries] at ih
      simp [ih]
    | remove q =>
      simp only [conflictEntries, List.filterMap_cons, replaceEntry]
      rw [conflictEntries] at ih
      simp [ih]
    | replace q w =>
      simp only [conflictEntries, List.filterMap_cons, replaceEntry]
      rw [conflictEntries] at ih
      simp only [List.mem_cons, Prod.mk.injEq, ih]
      constructor
      · rintro (⟨h1, h2⟩ | h)
        · subst h1; subst h2; exact .inl rfl
        · exact .inr h
      · rintro (h | h)
        · cases h; exact .inl ⟨rfl, rfl⟩
        · exact .inr h

/-- Concrete base tree used by witnesses. -/
def wA : Json := .obj [("a", .num 1)]

/-- Concrete edited tree used by witnesses. -/
def wB : Json := .obj [("a", .num 2), ("b", .num 3)]

/-- Concrete decoder used by witnesses: a finite partial bijection between
texts and trees. -/
def wDec : String → Option Json := fun s =>
  if s = "A" then some wA
  else if s = "B" then some wB
  else if s = "C" then some wB
  else none

/-- Concrete encoder used by witnesses. -/
def wEnc : Json → String := fun _ => "C"

/-- Concrete patch serializer used by witnesses. -/
def wPEnc : List Op → String := fun _ => "P"

/-- Concrete patch parser used by witnesses, inverse to `wPEnc` on the one
patch the witness exercises. -/
def wPDec : String → Option (List Op) := fun s =>
  if s = "P" then some (diffT wA wB) else none

/-- Concrete always-failing decoder used by witnesses. -/
def wNoneDec : String → Option Json := fun _ => none

/-- Concrete conflict-report renderer used by witnesses. -/
def wRender : Bool × List (List Tok × Json) → String := fun _ => "R"

/-- C1: for every pair of YAML texts that both decode successfully,
applying the patch produced by `yaml_diff` to the base text via
`apply_patch` yields a text whose decoded tree is structurally equal to the
decoded tree of the edited text.  The decoder, encoder and patch codec are
abstracted; the encoder and the patch codec are assumed left-invertible at
the two values this run produces (which the real serde codecs are), and
decoded trees are well-formed `BTreeMap` images. -/
theorem c1_diff_then_apply
    (dec : String → Option Json) (enc : Json → String)
    (pEnc : List Op → String) (pDec : String → Option (List Op))
    (ta tb : String) (a b : Json)
    (hdta : dec ta = some a) (hdtb : dec tb = some b)
    (hwa : wfJson a = true) (hwb : wfJson b = true)
    (hpd : pDec (pEnc (diffT a b)) = some (diffT a b))
    (hre : dec (enc b) = some b) :
    dec (applyPatchText dec enc pDec ta (yamlDiffText dec pEnc ta tb)) = some b := by
  simp only [yamlDiffText, hdta, hdtb]
  simp only [applyPatchText, hdta, hpd, applyOpsS_diffT a b hwa hwb]
  exact hre

/-- C1 witness: the diff-then-apply pipeline run at a concrete pair of
texts and trees. -/
theorem c1_diff_then_apply_witness :
    wDec "A" = some wA ∧ wDec "B" = some wB ∧
    wfJson wA = true ∧ wfJson wB = true ∧
    wPDec (wPEnc (diffT wA wB)) = some (diffT wA wB) ∧
    wDec (wEnc wB) = some wB ∧
    wDec (applyPatchText wDec wEnc wPDec "A" (yamlDiffText wDec wPEnc "A" "B")) =
      some wB :=
  ⟨rfl, rfl, by decide, by decide, rfl, rfl,
    c1_diff_then_apply wDec wEnc wPEnc wPDec "A" "B" wA wB rfl rfl
      (by decide) (by decide) rfl rfl⟩

/-- C2: patch application is atomic for the caller — when any operation of
the sequence fails (after a successful prefix), the whole application
returns that error and exposes no partially patched document, and the
fail-soft caller keeps exactly its pre-call tree. -/
theorem c2_patch_atomicity :
    ∀ (doc : Json) (ops1 : List Json) (op : Json) (ops2 : List Json) (d1 : Json)
      (e : String),
      applyJsonPatch doc ops1 = .ok d1 →
      applyOneOp d1 op = .error e →
      applyJsonPatch doc (ops1 ++ op :: ops2) = .error e ∧
        applyPatchFailSoft doc (ops1 ++ op :: ops2) = doc := by
  intro doc ops1
  induction ops1 generalizing doc with
  | nil =>
    intro op ops2 d1 e h1 h2
    rw [applyJsonPatch] at h1
    cases h1
    have h3 : applyJsonPatch doc ([] ++ op :: ops2) = .error e := by
      rw [List.nil_append, applyJsonPatch, h2]
    refine ⟨h3, ?_⟩
    rw [applyPatchFailSoft, h3]
  | cons o rest ih =>
    intro op ops2 d1 e h1 h2
    rw [applyJsonPatch] at h1
    cases ho : applyOneOp doc o with
    | error e2 => rw [ho] at h1; cases h1
    | ok d0 =>
      rw [ho] at h1
      have hmain := ih d0 op ops2 d1 e h1 h2
      have h3 : applyJsonPatch doc ((o :: rest) ++ op :: ops2) = .error e := by
        rw [List.cons_append, applyJsonPatch, ho]
        exact hmain.1
      refine ⟨h3, ?_⟩
      rw [applyPatchFailSoft, h3]

/-- Concrete document used by the C2 witness. -/
def wDoc : Json := .obj [("a", .num 1)]

/-- A patch-operation object that succeeds on `wDoc`. -/
def wGoodOp : Json := .obj [("op", .str "add"), ("path", .str "/b"), ("value", .num 2)]

/-- A patch-operation object that fails (its path does not exist). -/
def wBadOp : Json := .obj [("op", .str "remove"), ("path", .str "/zzz")]

/-- C2 witness: a patch whose first operation succeeds and whose second
fails leaves the caller with the original document. -/
theorem c2_patch_atomicity_witness :
    applyJsonPatch wDoc [wGoodOp] = .ok (.obj [("a", .num 1), ("b", .num 2)]) ∧
    applyOneOp (.obj [("a", .num 1), ("b", .num 2)]) wBadOp =
      .error "Path not found: /zzz" ∧
    applyJsonPatch wDoc ([wGoodOp] ++ wBadOp :: []) = .error "Path not found: /zzz" ∧
    applyPatchFailSoft wDoc ([wGoodOp] ++ wBadOp :: []) = wDoc :=
  ⟨by decide, by decide,
    (c2_patch_atomicity wDoc [wGoodOp] wBadOp [] (.obj [("a", .num 1), ("b", .num 2)])
      "Path not found: /zzz" (by decide) (by decide)).1,
    (c2_patch_atomicity wDoc [wGoodOp] wBadOp [] (.obj [("a", .num 1), ("b", .num 2)])
      "Path not found: /zzz" (by decide) (by decide)).2⟩

/-- C3: `yaml_diff` is fail-soft — if either input fails to decode it
returns exactly the text `[]`, never an error object. -/
theorem c3_diff_fail_soft
    (dec : String → Option Json) (pEnc : List Op → String) (ta tb : String)
    (h : dec ta = none ∨ dec tb = none) :
    yamlDiffText dec pEnc ta tb = "[]" := by
  rcases h with h | h
  · cases hm : dec tb <;> rw [yamlDiffText, h, hm]
  · cases hm : dec ta <;> rw [yamlDiffText, hm, h]

/-- C3 witness: a malformed base input makes the diff entry point return
the empty array. -/
theorem c3_diff_fail_soft_witness :
    wNoneDec "not: [valid" = none ∧
    yamlDiffText wNoneDec wPEnc "not: [valid" "a: 1" = "[]" :=
  ⟨rfl, c3_diff_fail_soft wNoneDec wPEnc "not: [valid" "a: 1" (Or.inl rfl)⟩

/-- C4: `apply_patch` returns the patched re-encoded document on success and
the original document text unchanged on every failure (decode error,
malformed patch, failing operation), never an error payload. -/
theorem c4_apply_patch_fail_soft
    (dec : String → Option Json) (enc : Json → String)
    (pDec : String → Option (List Op)) (t pt : String) (v : Json)
    (ops : List Op) (r : Json) (e : PathError) :
    (dec t = none → applyPatchText dec enc pDec t pt = t) ∧
    (dec t = some v → pDec pt = none → applyPatchText dec enc pDec t pt = t) ∧
    (dec t = some v → pDec pt = some ops → applyOpsS v ops = .error e →
      applyPatchText dec enc pDec t pt = t) ∧
    (dec t = some v → pDec pt = some ops → applyOpsS v ops = .ok r →
      applyPatchText dec enc pDec t pt = enc r) := by
  refine ⟨?_, ?_, ?_, ?_⟩
  · intro h1
    simp only [applyPatchText, h1]
  · intro h1 h2
    simp only [applyPatchText, h1, h2]
  · intro h1 h2 h3
    simp only [applyPatchText, h1, h2, h3]
  · intro h1 h2 h3
    simp only [applyPatchText, h1, h2, h3]

/-- C4 witness: the decode-failure branch returns the original text and the
success branch returns the encoded patched tree, at concrete inputs. -/
theorem c4_apply_patch_fail_soft_witness :
    wNoneDec "x" = none ∧
    applyPatchText wNoneDec wEnc wPDec "x" "P" = "x" ∧
    wDec "A" = some wA ∧ wPDec "P" = some (diffT wA wB) ∧
    applyOpsS wA (diffT wA wB) = .ok wB ∧
    applyPatchText wDec wEnc wPDec "A" "P" = wEnc wB :=
  ⟨rfl,
    (c4_apply_patch_fail_soft wNoneDec wEnc wPDec "x" "P" wA [] wA .pathNotFound).1 rfl,
    rfl, rfl,
    applyOpsS_diffT wA wB (by decide) (by decide),
    (c4_apply_patch_fail_soft wDec wEnc wPDec "A" "P" wA (diffT wA wB) wB
      .pathNotFound).2.2.2 rfl rfl (applyOpsS_diffT wA wB (by decide) (by decide))⟩

/-- C5: `detect_conflicts` reports `has_conflict` true exactly when the diff
of the two decoded trees contains a `Replace`; the conflict list has one
`{path, value}` entry per `Replace` and mentions no `Add` or `Remove`; and
any decode failure yields the literal fail-soft object. -/
theorem c5_conflict_detection
    (a b : Json) (dec : String → Option Json)
    (render : Bool × List (List Tok × Json) → String) (ta tb : String) :
    ((detectConflictsVal a b).1 = true ↔ ∃ p v, Op.replace p v ∈ diffT a b) ∧
    ((detectConflictsVal a b).2.length =
      ((diffT a b).filter (fun op => op.isReplace)).length) ∧
    (∀ p v, (p, v) ∈ (detectConflictsVal a b).2 ↔ Op.replace p v ∈ diffT a b) ∧
    ((dec ta = none ∨ dec tb = none) →
      detectConflictsText dec render ta tb =
        "\x7b\"has_conflict\": false, \"conflicts\": []\x7d") := by
  refine ⟨?_, conflictEntries_length _, fun p v => conflictEntries_mem _ p v, ?_⟩
  · rw [detectConflictsVal]
    simp only [Bool.not_eq_true']
    constructor
    · intro h
      cases hc : conflictEntries (diffT a b) with
      | nil => rw [hc] at h; simp at h
      | cons entry rest =>
        obtain ⟨p, v⟩ := entry
        exact ⟨p, v, (conflictEntries_mem _ p v).mp (by rw [hc]; simp)⟩
    · rintro ⟨p, v, hm⟩
      have hmem := (conflictEntries_mem (diffT a b) p v).mpr hm
      have hne := List.ne_nil_of_mem hmem
      cases hc : conflictEntries (diffT a b) with
      | nil => exact absurd hc hne
      | cons x r => rfl
  · intro h
    rcases h with h | h
    · cases hm : dec tb <;> rw [detectConflictsText, h, hm]
    · cases hm : dec ta <;> rw [detectConflictsText, hm, h]

/-- C5 witness: at a concrete pair of decode-failing inputs the detector
returns the fail-soft object. -/
theorem c5_conflict_detection_witness :
    (wNoneDec "x" = none ∨ wNoneDec "y" = none) ∧
    detectConflictsText wNoneDec wRender "x" "y" =
      "\x7b\"has_conflict\": false, \"conflicts\": []\x7d" :=
  ⟨Or.inl rfl,
    (c5_conflict_detection wA wB wNoneDec wRender "x" "y").2.2.2 (Or.inl rfl)⟩

/-- C6: `Add` at `/a/b/c` on the empty mapping succeeds with the fully
nested result, and in general a missing non-final mapping key is
auto-vivified as an empty mapping before continuing, instead of failing. -/
theorem c6_add_auto_vivification :
    (∀ v : Json, addValueAtPath (.obj []) ["a", "b", "c"] v =
      .ok (.obj [("a", .obj [("b", .obj [("c", v)])])])) ∧
    (∀ (m : List (String × Json)) (k : String) (rest : List String) (v : Json),
      lookupKV m k = none → rest ≠ [] →
      addValueAtPath (.obj m) (k :: rest) v =
        (addValueAtPath (.obj []) rest v).map (fun s => .obj (mapInsert m k s))) := by
  constructor
  · intro v; rfl
  · intro m k rest v hl hrest
    cases rest with
    | nil => exact absurd rfl hrest
    | cons r rs => simp only [addValueAtPath, hl]

/-- C6 witness: auto-vivification of one missing intermediate key at a
concrete document. -/
theorem c6_add_auto_vivification_witness :
    lookupKV [("x", (.num 1 : Json))] "y" = none ∧ (["z"] ≠ ([] : List String)) ∧
    addValueAtPath (.obj [("x", .num 1)]) ["y", "z"] (.num 2) =
      (addValueAtPath (.obj []) ["z"] (.num 2)).map
        (fun s => .obj (mapInsert [("x", .num 1)] "y" s)) :=
  ⟨by decide, by decide,
    c6_add_auto_vivification.2 [("x", .num 1)] "y" ["z"] (.num 2)
      (by decide) (by decide)⟩

/-- C7 counterexample: the claim says a non-final append marker is an error,
but `add_value_at_path` treats `-` on a mapping as an ordinary literal key:
`Add` with the path segments `-` then `x` on the empty mapping silently
succeeds by auto-vivifying the key `-`. -/
theorem c7_counterexample :
    addValueAtPath (.obj []) ["-", "x"] (.num 1) =
      .ok (.obj [("-", .obj [("x", .num 1)])]) := by decide

/-- C7 (amended): `Add` at a path ending in `-` on a sequence always appends
after the last element, and a non-final `-` while addressing a sequence is
an error; while addressing a mapping, `-` is an ordinary literal key. -/
theorem c7_append_marker_amended :
    (∀ (xs : List Json) (v : Json),
      addValueAtPath (.arr xs) ["-"] v = .ok (.arr (xs ++ [v]))) ∧
    (addValueAtPath (.obj [("items", .arr [.num 1, .num 2])]) ["items", "-"] (.num 9) =
      .ok (.obj [("items", .arr [.num 1, .num 2, .num 9])])) ∧
    (∀ (xs : List Json) (rest : List String) (v : Json), rest ≠ [] →
      addValueAtPath (.arr xs) ("-" :: rest) v =
        .error "Cannot add nested value to array end index") := by
  refine ⟨?_, by decide, ?_⟩
  · intro xs v
    simp [addValueAtPath]
  · intro xs rest v hrest
    cases rest with
    | nil => exact absurd rfl hrest
    | cons r rs => simp [addValueAtPath]

/-- C7 witness: appending and the non-final-marker error at concrete
inputs. -/
theorem c7_append_marker_amended_witness :
    ((["x"] : List String) ≠ []) ∧
    addValueAtPath (.arr [.num 1]) ["-", "x"] (.num 2) =
      .error "Cannot add nested value to array end index" :=
  ⟨by decide, c7_append_marker_amended.2.2 [.num 1] ["x"] (.num 2) (by decide)⟩

/-- C8: on a sequence final token, `add` succeeds exactly for indices up to
the length (shifting insert, with index-equals-length appending), while
`remove` and `replace` require a strictly in-range index and return an
out-of-bounds error otherwise. -/
theorem c8_sequence_index_bounds :
    ∀ (xs : List Json) (s : String) (i : Nat) (v : Json), parseIndex s = some i →
      (i ≤ xs.length →
        addValueAtPath (.arr xs) [s] v = .ok (.arr (xs.insertIdx i v))) ∧
      (i > xs.length → addValueAtPath (.arr xs) [s] v =
        .error ("Array index out of bounds: " ++ toString i)) ∧
      (i < xs.length →
        removeValueAtPath (.arr xs) [s] = .ok (.arr (xs.eraseIdx i))) ∧
      (xs.length ≤ i → removeValueAtPath (.arr xs) [s] =
        .error ("Array index out of bounds: " ++ toString i)) ∧
      (i < xs.length →
        replaceValueAtPath (.arr xs) [s] v = .ok (.arr (xs.set i v))) ∧
      (xs.length ≤ i → replaceValueAtPath (.arr xs) [s] v =
        .error ("Array index out of bounds: " ++ toString i)) := by
  intro xs s i v hp
  have hdash : s ≠ "-" := by
    intro h
    subst h
    have hnone : parseIndex "-" = none := by decide
    rw [hnone] at hp
    cases hp
  refine ⟨?_, ?_, ?_, ?_, ?_, ?_⟩
  · intro hle
    simp only [addValueAtPath, if_neg hdash, hp]
    by_cases he : i = xs.length
    · subst he
      simp [List.insertIdx_length_self]
    · have hgt : ¬ i > xs.length := by omega
      simp [hgt, he]
  · intro hgt
    simp [addValueAtPath, if_neg hdash, hp, hgt]
  · intro hlt
    simp [removeValueAtPath, if_neg hdash, hp, hlt]
  · intro hge
    have hlt : ¬ i < xs.length := by omega
    simp [removeValueAtPath, if_neg hdash, hp, hlt]
  · intro hlt
    simp [replaceValueAtPath, if_neg hdash, hp, hlt]
  · intro hge
    have hlt : ¬ i < xs.length := by omega
    simp [replaceValueAtPath, if_neg hdash, hp, hlt]

/-- C8 witness: in-bounds insert and remove and an out-of-bounds replace at
concrete sequences. -/
theorem c8_sequence_index_bounds_witness :
    parseIndex "1" = some 1 ∧
    addValueAtPath (.arr [.num 5, .num 6]) ["1"] (.num 7) =
      .ok (.arr (([.num 5, .num 6] : List Json).insertIdx 1 (.num 7))) ∧
    removeValueAtPath (.arr [.num 5, .num 6]) ["1"] =
      .ok (.arr (([.num 5, .num 6] : List Json).eraseIdx 1)) ∧
    replaceValueAtPath (.arr [.num 5]) ["1"] (.num 7) =
      .error ("Array index out of bounds: " ++ toString 1) :=
  ⟨by decide,
    (c8_sequence_index_bounds [.num 5, .num 6] "1" 1 (.num 7) (by decide)).1
      (by decide),
    (c8_sequence_index_bounds [.num 5, .num 6] "1" 1 (.num 7) (by decide)).2.2.1
      (by decide),
    (c8_sequence_index_bounds [.num 5] "1" 1 (.num 7) (by decide)).2.2.2.2.2
      (by decide)⟩

/-- C9 counterexample: the claim says the patch applier interprets a
JSON-Pointer-escaped segment as the literal key containing the slash or
tilde, so an `add` at the wire path with segment `a~1b` should create the
key `a/b`.  The in-repo applier (validate.rs `apply_json_patch`) performs
no unescaping: the same operation creates the literal key `a~1b` and the
key `a/b` is absent from the result. -/
theorem c9_counterexample :
    applyOneOp (.obj [])
      (.obj [("op", .str "add"), ("path", .str "/a~1b"), ("value", .num 1)]) =
      .ok (.obj [("a~1b", .num 1)]) ∧
    lookupKV [("a~1b", (.num 1 : Json))] "a/b" = none :=
  ⟨by decide, by decide⟩

/-- C9 (amended): the wire format escapes `/` as `~1` and `~` as `~0`, and
the crate-based applier behind diff.rs `apply_patch` interprets those
escapes, but the hand-rolled applier in validate.rs matches path segments
literally: for every document, an `add` whose path segment is `a~1b`
inserts at the literal key `a~1b`, not at `a/b`. -/
theorem c9_literal_segments :
    ∀ (m : List (String × Json)) (v : Json),
      applyOneOp (.obj m)
        (.obj [("op", .str "add"), ("path", .str "/a~1b"), ("value", v)]) =
        .ok (.obj (mapInsert m "a~1b" v)) := by
  intro m v
  have hsplit : splitSlash "/a~1b" = ["", "a~1b"] := by decide
  simp [applyOneOp, jGet, lookupKV, jAsStr, hsplit, addValueAtPath]

/-- Helper classifying a malformed patch-operation object: an unsupported
or non-string or missing `op` field, a missing `path` field, or a missing
`value` field on an `add` or `replace`. -/
def badOp (o : Json) : Prop :=
  jGet o "op" = none ∨
  (∃ j, jGet o "op" = some j ∧ jAsStr j = none) ∨
  (∃ s, jGet o "op" = some (.str s) ∧ s ≠ "add" ∧ s ≠ "remove" ∧ s ≠ "replace") ∨
  jGet o "path" = none ∨
  ((jGet o "op" = some (.str "add") ∨ jGet o "op" = some (.str "replace")) ∧
    jGet o "value" = none)

theorem jAsStr_some {j : Json} {s : String} (h : jAsStr j = some s) : j = .str s := by
  cases j <;> simp [jAsStr] at h
  rw [h]

theorem applyOneOp_badOp :
    ∀ (o : Json), badOp o → ∀ d : Json, ∃ e, applyOneOp d o = .error e := by
  intro o hbad d
  cases hop : jGet o "op" with
  | none => exact ⟨"Missing 'op' field in patch", by simp [applyOneOp, hop]⟩
  | some j =>
    cases hstr : jAsStr j with
    | none => exact ⟨"Invalid op field", by simp [applyOneOp, hop, hstr]⟩
    | some opType =>
      have hj := jAsStr_some hstr
      subst hj
      cases hpath : jGet o "path" with
      | none =>
        exact ⟨"Missing 'path' field in patch", by simp [applyOneOp, hop, hstr, hpath]⟩
      | some pv =>
        cases hpstr : jAsStr pv with
        | none => exact ⟨"Invalid path field", by simp [applyOneOp, hop, hstr, hpath, hpstr]⟩
        | some p =>
          cases hts : splitSlash p with
          | nil =>
            exact ⟨"Invalid JSON Pointer: " ++ p,
              by simp [applyOneOp, hop, hstr, hpath, hpstr, hts]⟩
          | cons t0 toks =>
            by_cases ht0 : t0 = ""
            · subst ht0
              rcases hbad with h | h | h | h | h
              · rw [hop] at h; cases h
              · obtain ⟨j2, hj2, hs2⟩ := h
                rw [hop] at hj2
                cases hj2
                simp [jAsStr] at hs2
              · obtain ⟨s2, hs2, hne1, hne2, hne3⟩ := h
                rw [hop] at hs2
                injection hs2 with hs3
                injection hs3 with hs4
                subst hs4
                exact ⟨"Unsupported operation: " ++ opType, by
                  simp [applyOneOp, hop, hstr, hpath, hpstr, hts, hne1, hne2, hne3]⟩
              · rw [hpath] at h; cases h
              · obtain ⟨hops, hval⟩ := h
                rcases hops with hops | hops
                · rw [hop] at hops
                  injection hops with hs3
                  injection hs3 with hs4
                  subst hs4
                  exact ⟨"Missing 'value' field for 'add' operation",
                    by simp [applyOneOp, hop, hstr, hpath, hpstr, hts, hval]⟩
                · rw [hop] at hops
                  injection hops with hs3
                  injection hs3 with hs4
                  subst hs4
                  exact ⟨"Missing 'value' field for 'replace' operation",
                    by simp [applyOneOp, hop, hstr, hpath, hpstr, hts, hval]⟩
            · exact ⟨"Invalid JSON Pointer: " ++ p,
                by simp [applyOneOp, hop, hstr, hpath, hpstr, hts, ht0]⟩

/-- C10: a patch containing an operation whose `op` is missing, non-string
or not one of `add`, `remove`, `replace` (so also `move`, `copy`, `test`),
or missing its `path`, or missing its `value` on an `add` or `replace`,
makes the whole `apply_json_patch` run fail with an error — the operation is
never skipped or ignored. -/
theorem c10_op_parsing_strict :
    ∀ (doc : Json) (ops : List Json), (∃ o ∈ ops, badOp o) →
      ∃ e, applyJsonPatch doc ops = .error e := by
  intro doc ops
  induction ops generalizing doc with
  | nil =>
    rintro ⟨o, ho, _⟩
    simp at ho
  | cons hd rest ih =>
    rintro ⟨o, ho, hbad⟩
    rcases List.mem_cons.mp ho with ho | ho
    · subst ho
      obtain ⟨e, he⟩ := applyOneOp_badOp o hbad doc
      exact ⟨e, by rw [applyJsonPatch, he]⟩
    · cases hh : applyOneOp doc hd with
      | error e => exact ⟨e, by rw [applyJsonPatch, hh]⟩
      | ok d =>
        obtain ⟨e, he⟩ := ih d ⟨o, ho, hbad⟩
        exact ⟨e, by simp only [applyJsonPatch, hh]; exact he⟩

/-- A `move` operation object, unsupported by the applier. -/
def wMoveOp : Json := .obj [("op", .str "move"), ("path", .str "/a")]

/-- C10 witness: a patch containing a `move` operation fails as a whole. -/
theorem c10_op_parsing_strict_witness :
    badOp wMoveOp ∧ ∃ e, applyJsonPatch (.obj []) [wMoveOp] = .error e :=
  ⟨Or.inr (Or.inr (Or.inl ⟨"move", by decide, by decide, by decide, by decide⟩)),
    c10_op_parsing_strict (.obj []) [wMoveOp]
      ⟨wMoveOp, by simp,
        Or.inr (Or.inr (Or.inl ⟨"move", by decide, by decide, by decide, by decide⟩))⟩⟩
